import Mathlib

/-!
Verification of the nl2bash pcfg parser core (`src/pcfg/src/parser.py`)
against its natural-language specification.

Modelling conventions:
* Python machine floats are modelled as rationals `ℚ` (score arithmetic in the
  source is plain addition/multiplication/comparison).
* Python `dict`s are modelled as association lists with first-match lookup and
  in-place overwrite on insertion; Python `set`s as `Finset String`.
* File/gzip input is modelled as the list of lines read from the file.
* A Python exception escaping a function (IndexError / ValueError /
  SystemExit) is modelled with `Except`; `sys.exit(1)` is `Except.error 1`
  (the process exit status).
* The grammar module (`from grammar import *`) is not part of this core.
  Its `Enumerator` capability is modelled from the spec, see `Grammar` below.
-/

/-! ## Association-list model of Python dicts -/

/-- First-match lookup, the semantics of `d[k]` / `k in d` for our assoc lists. -/
def lookupAssoc {α : Type} : List (String × α) → String → Option α
  | [], _ => none
  | (k2, v) :: rest, k => if k = k2 then some v else lookupAssoc rest k

/-- `d[k] = v`: overwrite the first binding of `k`, or append a new one. -/
def insertAssoc {α : Type} : List (String × α) → String → α → List (String × α)
  | [], k, v => [(k, v)]
  | (k2, v2) :: rest, k, v =>
      if k = k2 then (k, v) :: rest else (k2, v2) :: insertAssoc rest k v

/-- Nested-dict insert, the semantics of `defaultdict(dict)` assignment
`d[k1][k2] = v` in `make_phrase_table`. -/
def insert2 (m : List (String × List (String × ℚ))) (k1 k2 : String) (v : ℚ) :
    List (String × List (String × ℚ)) :=
  match lookupAssoc m k1 with
  | none => insertAssoc m k1 [(k2, v)]
  | some inner => insertAssoc m k1 (insertAssoc inner k2 v)

/-- Nested-dict lookup `d[k1][k2]`. -/
def lookup2 (m : List (String × List (String × ℚ))) (k1 k2 : String) : Option ℚ :=
  match lookupAssoc m k1 with
  | none => none
  | some inner => lookupAssoc inner k2

/-! ## Python string helpers used by the source -/

/-- Words of a char list: maximal runs of non-whitespace characters.
The fuel argument (instantiated with the list's length, which always
suffices) keeps the recursion structural. -/
def pyWordsF : Nat → List Char → List (List Char)
  | _, [] => []
  | 0, cs => [cs]
  | fuel + 1, c :: cs =>
      if c.isWhitespace then pyWordsF fuel cs
      else
        ((c :: cs).takeWhile (fun d => !d.isWhitespace)) ::
          pyWordsF fuel ((c :: cs).dropWhile (fun d => !d.isWhitespace))

/-- Python `s.split()` (no separator): split on whitespace runs, no empty parts. -/
def pySplitWhitespace (s : String) : List String :=
  (pyWordsF s.data.length s.data).map (fun cs => String.mk cs)

/-- `true` when `p` is an initial segment of `cs`. -/
def beginsWith : List Char → List Char → Bool
  | [], _ => true
  | _ :: _, [] => false
  | p :: ps, c :: cs => p = c && beginsWith ps cs

/-- Split a char list on every (leftmost, non-overlapping) occurrence of the
non-empty separator `sep`, keeping empty pieces — the semantics of Python
`s.split(sep)`.  The fuel argument (instantiated with the list's length,
which always suffices) keeps the recursion structural. -/
def splitOnListF (sep : List Char) : Nat → List Char → List (List Char)
  | _, [] => [[]]
  | 0, cs => [cs]
  | fuel + 1, c :: cs =>
      if sep ≠ [] ∧ beginsWith sep (c :: cs) then
        [] :: splitOnListF sep fuel ((c :: cs).drop sep.length)
      else
        match splitOnListF sep fuel cs with
        | [] => [[c]]
        | p :: ps => (c :: p) :: ps

/-- Python `s.split(sep)` for a non-empty separator. -/
def pySplitOn (s sep : String) : List String :=
  (splitOnListF sep.data s.data.length s.data).map (fun cs => String.mk cs)

/-- Python `s.strip()`: drop leading and trailing whitespace. -/
def pyStrip (s : String) : String :=
  String.mk (((s.data.dropWhile Char.isWhitespace).reverse.dropWhile
      Char.isWhitespace).reverse)

/-! ## A model of Python `float()` on decimal literals

Models `float(s)` for the plain decimal literals that occur in phrase tables:
optional sign, digit sequences around an optional point, optional
signed exponent.  (The exotic inputs Python additionally accepts — `inf`,
`nan`, underscores, surrounding whitespace — are out of scope; they never
occur in well-formed phrase-table score fields.) -/

def parseDigits (cs : List Char) : Option Nat :=
  match cs with
  | [] => none
  | _ =>
    cs.foldl
      (fun acc c =>
        match acc with
        | none => none
        | some n => if c.isDigit then some (n * 10 + (c.toNat - 48)) else none)
      (some 0)

/-- Split a char list at the first char satisfying `p` (separator dropped);
`none` when no separator occurs. -/
def splitAtChar (p : Char → Bool) : List Char → List Char × Option (List Char)
  | [] => ([], none)
  | c :: rest =>
      if p c then ([], some rest)
      else
        let r := splitAtChar p rest
        (c :: r.1, r.2)

/-- Mantissa without sign: `digits`, `digits.digits`, `digits.` or `.digits`. -/
def parseUnsigned (cs : List Char) : Option ℚ :=
  let r := splitAtChar (fun c => c = '.') cs
  match r.2 with
  | none => (parseDigits r.1).map (fun n => (n : ℚ))
  | some fp =>
      if r.1 = [] ∧ fp = [] then none
      else
        match (if r.1 = [] then some 0 else parseDigits r.1),
              (if fp = [] then some 0 else parseDigits fp) with
        | some ni, some nf => some ((ni : ℚ) + (nf : ℚ) / ((10 : ℚ) ^ fp.length))
        | _, _ => none

def parseExponent (cs : List Char) : Option Int :=
  match cs with
  | '-' :: rest => (parseDigits rest).map (fun n => -(n : Int))
  | '+' :: rest => (parseDigits rest).map (fun n => (n : Int))
  | _ => (parseDigits cs).map (fun n => (n : Int))

/-- Unsigned mantissa with optional exponent part. -/
def parseMagnitude (cs : List Char) : Option ℚ :=
  let r := splitAtChar (fun c => c = 'e' ∨ c = 'E') cs
  match r.2 with
  | none => parseUnsigned r.1
  | some ecs =>
      match parseUnsigned r.1, parseExponent ecs with
      | some m, some e => some (m * (10 : ℚ) ^ e)
      | _, _ => none

def parseFloat (s : String) : Option ℚ :=
  match s.data with
  | '-' :: rest => (parseMagnitude rest).map (fun m => -m)
  | '+' :: rest => parseMagnitude rest
  | cs => parseMagnitude cs

/-! ## Phrase table (`Parser.make_phrase_table`, parser.py lines 104-116) -/

/-- The two directional mappings built by `make_phrase_table`:
`P2TScores : phrase → snippet → weight`, `T2PScores : snippet → phrase → weight`. -/
structure PhraseTables where
  P2TScores : List (String × List (String × ℚ))
  T2PScores : List (String × List (String × ℚ))
deriving DecidableEq

/-- One loop iteration of `make_phrase_table`, parse half:
`parts = line.strip().split("|||")`; `parts[0].strip()`, `parts[1].strip()`,
`[float(s) for s in parts[2].split()]` unpacked into four names.
An IndexError (fewer than three parts) or ValueError (bad float / wrong
count) is `Except.error ()`.  Extra parts beyond `parts[2]` are ignored,
exactly as indexing ignores them in the source. -/
def parseLine (line : String) : Except Unit ((String × String) × (ℚ × ℚ × ℚ × ℚ)) :=
  match pySplitOn (pyStrip line) "|||" with
  | p0 :: p1 :: p2 :: _ =>
      let nl_phrase := pyStrip p0
      let cmd_snippet := pyStrip p1
      match (pySplitWhitespace p2).mapM parseFloat with
      | some [phi_cmd_nl, lex_cmd_nl, phi_nl_cmd, lex_nl_cmd] =>
          .ok ((nl_phrase, cmd_snippet), (phi_cmd_nl, lex_cmd_nl, phi_nl_cmd, lex_nl_cmd))
      | _ => .error ()
  | _ => .error ()

/-- One loop iteration, store half:
`P2TScores[nl_phrase][cmd_snippet] = lex_nl_cmd` and
`T2PScores[cmd_snippet][nl_phrase] = lex_nl_cmd` — note the source stores
`lex_nl_cmd`, the FOURTH of the four floats. -/
def addRecord (t : PhraseTables) (r : (String × String) × (ℚ × ℚ × ℚ × ℚ)) :
    PhraseTables :=
  { P2TScores := insert2 t.P2TScores r.1.1 r.1.2 r.2.2.2.2
    T2PScores := insert2 t.T2PScores r.1.2 r.1.1 r.2.2.2.2 }

def make_phrase_table_from (t : PhraseTables) : List String → Except Unit PhraseTables
  | [] => .ok t
  | line :: rest =>
      match parseLine line with
      | .error e => .error e
      | .ok r => make_phrase_table_from (addRecord t r) rest

/-- `Parser.make_phrase_table`, with the gzip file abstracted to its lines.
The source starts from two fresh `defaultdict(dict)` tables and loops over
`f.readlines()`; the first malformed line raises, aborting construction. -/
def make_phrase_table (lines : List String) : Except Unit PhraseTables :=
  make_phrase_table_from ⟨[], []⟩ lines

/-! ## Cell (parser.py lines 24-86) -/

/-- The partial-derivation chain node.  `root t ff` is a `Cell` built with
`bp = None`; `cons t bp ff` one built with backpointer `bp`.  `ff` is the
`ff` dict (`word → weight`) passed to the constructor. -/
inductive Cell where
  | root (term : String) (ff : List (String × ℚ))
  | cons (term : String) (backpointer : Cell) (ff : List (String × ℚ))
deriving DecidableEq

def Cell.term : Cell → String
  | .root t _ => t
  | .cons t _ _ => t

/-- `self.length = bp.length + 1 if bp else 0` -/
def Cell.length : Cell → Nat
  | .root _ _ => 0
  | .cons _ bp _ => bp.length + 1

/-- `self.score = bp.score + sum(ff.values()) if bp else 0` -/
def Cell.score : Cell → ℚ
  | .root _ _ => 0
  | .cons _ bp ff => bp.score + (ff.map Prod.snd).sum

/-- `self.covered_words = set(ff.keys())` -/
def Cell.covered_words : Cell → Finset String
  | .root _ ff => (ff.map Prod.fst).toFinset
  | .cons _ _ ff => (ff.map Prod.fst).toFinset

/-- `Cell.cnl_words`: union of `covered_words` over the whole backpointer chain. -/
def Cell.cnl_words : Cell → Finset String
  | .root _ ff => (ff.map Prod.fst).toFinset
  | .cons _ bp ff => (ff.map Prod.fst).toFinset ∪ bp.cnl_words

/-- The `command` list built by `Cell.genCommand` before joining: walk the
chain back to the root, substituting `"*"` for the grammar hole symbol;
`insert(0, ...)` while walking back yields root-to-leaf order. -/
def Cell.genCmdList (hole : String) : Cell → List String
  | .root t _ => [if t = hole then "*" else t]
  | .cons t bp _ => bp.genCmdList hole ++ [if t = hole then "*" else t]

/-- `Cell.genCommand`: `' '.join(command[1:])`. -/
def Cell.genCommand (hole : String) (c : Cell) : String :=
  String.intercalate " " ((c.genCmdList hole).drop 1)

/-- Specification-side view of a chain: the raw terms from the root to this
cell, in root-to-leaf order (no hole substitution, start token included). -/
def Cell.chainTerms : Cell → List String
  | .root t _ => [t]
  | .cons t bp _ => bp.chainTerms ++ [t]

/-- The chain's terms with the synthetic start (root) term removed. -/
def Cell.bodyTerms (c : Cell) : List String :=
  c.chainTerms.drop 1

/-! ## Token Enumerator capability and the Parser -/

/-- Modelled from the spec: the Token Enumerator capability (the grammar
module is outside this core).  Its internal state is the derivation stack of
pushed tokens; `legal_tokens`, `allows` and `allow_eof` are queries on that
stack; `push` conses a token, `pop` removes the most recent one.  `eof` and
`hole` are the grammar's end-of-input sentinel (`Enumerator.EOF`) and hole
symbol (`Enumerator.HOLE`). -/
structure Grammar where
  legal_tokens : List String → List String
  allows : List String → String → Bool
  allow_eof : List String → Bool
  eof : String
  hole : String

/-- `Parser.__init__` state (parser.py lines 88-102).  Defaults in the
source: `min_cl = 2`, `max_cl = 10`, `redundant_word_score = 0.0`,
`ungrounded_token_score = -1e-5`. -/
structure Parser where
  grammar : Grammar
  P2TScores : List (String × List (String × ℚ))
  T2PScores : List (String × List (String × ℚ))
  redundant_word_score : ℚ
  ungrounded_token_score : ℚ
  min_command_length : Nat
  max_command_length : Nat

/-- `Parser.local_score` (lines 118-133): for each input word with a
recorded alignment to `term` in `T2PScores[term]`, fire the feature
`word → weight`; empty when `term` is absent from the table.
(`words.dedup` reflects that `fired_features` is a dict keyed by word.) -/
def Parser.local_score (P : Parser) (term : String) (words : List String) :
    List (String × ℚ) :=
  match lookupAssoc P.T2PScores term with
  | none => []
  | some inner =>
      words.dedup.filterMap (fun w => (lookupAssoc inner w).map (fun v => (w, v)))

/-- `Parser.final_score` (lines 135-136):
`cell.score += redundant_word_score * len(set(words) - cell.cnl_words())`.
Modelled functionally as the resulting score value. -/
def Parser.final_score (P : Parser) (c : Cell) (words : List String) : ℚ :=
  c.score + P.redundant_word_score * ((words.toFinset \ c.cnl_words).card : ℚ)

/-! ## The DFS traversal (parser.py lines 164-203) -/

/-- Calls made to the Token Enumerator's mutating interface, recorded so
that stack discipline is observable. -/
inductive EnumEvent where
  | push (t : String)
  | pop
deriving DecidableEq

/-- The mutable state threaded through `dfs`: the Token Enumerator's
derivation stack, the `final_cells` accumulator, and the trace of
push/pop calls issued so far. -/
structure SearchState where
  stack : List String
  final_cells : List Cell
  trace : List EnumEvent
deriving DecidableEq

/-- `final_cells.append(cell)` -/
def recordCell (st : SearchState) (c : Cell) : SearchState :=
  ⟨st.stack, st.final_cells ++ [c], st.trace⟩

/-- `self.push(term)` -/
def pushTok (st : SearchState) (t : String) : SearchState :=
  ⟨t :: st.stack, st.final_cells, st.trace ++ [.push t]⟩

/-- `self.pop()` -/
def popTok (st : SearchState) : SearchState :=
  ⟨st.stack.tail, st.final_cells, st.trace ++ [.pop]⟩

/-- The `for term in self.legal_tokens():` loop body of `dfs` (lines
196-199): per legal token, fire local features, build the child cell with
the current cell as backpointer, and recurse (`f` is the recursive call at
the next depth). -/
def dfsChildren (P : Parser) (words : List String)
    (f : Cell → SearchState → Except Nat SearchState) (cell : Cell) :
    List String → SearchState → Except Nat SearchState
  | [], st => .ok st
  | t :: ts, st =>
      match f (Cell.cons t cell (P.local_score t words)) st with
      | .error e => .error e
      | .ok st2 => dfsChildren P words f cell ts st2

/-- `Parser.dfs` (lines 164-203), with explicit fuel (the recursion is in
fact bounded by `max_command_length`, which `Parser.parse` supplies as
fuel; fuel exhaustion returns the state unchanged and is unreachable from
`parse`).  Faithful points to note:
* the legal-command check (line 177) precedes the maximum-length check
  (line 181), so a cell of maximal length can still be recorded;
* `sys.exit(1)` on a rejected push is `Except.error 1`;
* the `for term in self.legal_tokens():` loop REBINDS the Python variable
  `term`, so the pop guard at line 201 tests the LAST legal token (or the
  cell's own term when there were no legal tokens), not the cell's term —
  `legal.getLastD term` reproduces this. -/
def Parser.dfs (P : Parser) (words : List String) :
    Nat → Cell → SearchState → Except Nat SearchState
  | 0, _, st => .ok st
  | Nat.succ fuel, cell, st =>
      let term := cell.term
      if term = P.grammar.eof then .ok st
      else if term = "|" then .ok st
      else
        let st1 :=
          if P.min_command_length < cell.length ∧ P.grammar.allow_eof st.stack
          then recordCell st cell else st
        if cell.length = P.max_command_length then .ok st1
        else
          let pushed : Except Nat SearchState :=
            if term = "__START_SYMBOL__" then .ok st1
            else if P.grammar.allows st1.stack term then .ok (pushTok st1 term)
            else .error 1
          match pushed with
          | .error e => .error e
          | .ok st2 =>
              let legal := P.grammar.legal_tokens st2.stack
              match dfsChildren P words (P.dfs words fuel) cell legal st2 with
              | .error e => .error e
              | .ok st3 =>
                  if legal.getLastD term = "__START_SYMBOL__" then .ok st3
                  else .ok (popTok st3)

/-- `Parser.parse` (lines 138-162), reporting the ranked cells instead of
printing them: split the sentence, run the DFS from the start cell, apply
`final_score` to every recorded cell, sort by the adjusted score
descending (Python's stable `sorted(..., reverse=True)`), and keep the top
`top_K` (the source's default for `top_K` is 50). -/
def Parser.parse (P : Parser) (sent : String) (top_K : Nat) :
    Except Nat (List Cell) :=
  let words := pySplitWhitespace sent
  let start_cell := Cell.root "__START_SYMBOL__" []
  match P.dfs words (P.max_command_length + 1) start_cell ⟨[], [], []⟩ with
  | .error e => .error e
  | .ok st =>
      .ok ((List.insertionSort
              (fun a b => P.final_score b words ≤ P.final_score a words)
              st.final_cells).take top_K)

/-! ## Test fixtures: a minimal concrete grammar and parser instances -/

/-- A minimal concrete grammar: from the empty derivation stack the single
token `"a"` is legal, every push is accepted, termination is always legal. -/
def Gtest : Grammar :=
  { legal_tokens := fun s => if s = [] then ["a"] else []
    allows := fun _ _ => true
    allow_eof := fun _ => true
    eof := "<EOF>"
    hole := "<HOLE>" }

/-- A parser over `Gtest` with an empty phrase table, `min_cl = 0`,
`max_cl = 1` and the source's default penalty weights. -/
def Ptest : Parser :=
  { grammar := Gtest, P2TScores := [], T2PScores := []
    redundant_word_score := 0, ungrounded_token_score := -1/100000
    min_command_length := 0, max_command_length := 1 }

/-- A grammar whose Token Enumerator rejects every push. -/
def Greject : Grammar :=
  { legal_tokens := fun _ => []
    allows := fun _ _ => false
    allow_eof := fun _ => false
    eof := "<EOF>"
    hole := "<HOLE>" }

/-- A parser over `Greject`, `min_cl = 0`, `max_cl = 5`. -/
def Preject : Parser :=
  { grammar := Greject, P2TScores := [], T2PScores := []
    redundant_word_score := 0, ungrounded_token_score := -1/100000
    min_command_length := 0, max_command_length := 5 }

/-! ## Chain lemmas -/

theorem Cell.chainTerms_length (c : Cell) : c.chainTerms.length = c.length + 1 := by
  induction c with
  | root t ff => rfl
  | cons t bp ff ih => simp [Cell.chainTerms, Cell.length, ih]

theorem Cell.genCmdList_eq_map (hole : String) (c : Cell) :
    c.genCmdList hole = c.chainTerms.map (fun t => if t = hole then "*" else t) := by
  induction c with
  | root t ff => rfl
  | cons t bp ff ih => simp [Cell.genCmdList, Cell.chainTerms, ih]

theorem Cell.bodyTerms_cons (t : String) (bp : Cell) (ff : List (String × ℚ)) :
    (Cell.cons t bp ff).bodyTerms = bp.bodyTerms ++ [t] := by
  have h1 : (1 : Nat) ≤ bp.chainTerms.length := by
    rw [Cell.chainTerms_length]; omega
  simp [Cell.bodyTerms, Cell.chainTerms, List.drop_append_of_le_length h1]

theorem Cell.bodyTerms_length (c : Cell) : c.bodyTerms.length = c.length := by
  simp [Cell.bodyTerms, Cell.chainTerms_length]

/-! ## Association-list lemmas -/

theorem lookupAssoc_insertAssoc_self {α : Type} (m : List (String × α))
    (k : String) (v : α) : lookupAssoc (insertAssoc m k v) k = some v := by
  induction m with
  | nil => simp [insertAssoc, lookupAssoc]
  | cons p rest ih =>
      by_cases h : k = p.1
      · simp [insertAssoc, lookupAssoc, h]
      · simp [insertAssoc, lookupAssoc, h, ih]

theorem lookup2_insert2_self (m : List (String × List (String × ℚ)))
    (k1 k2 : String) (v : ℚ) : lookup2 (insert2 m k1 k2 v) k1 k2 = some v := by
  unfold insert2 lookup2
  cases h : lookupAssoc m k1 with
  | none => simp [h, lookupAssoc_insertAssoc_self, lookupAssoc]
  | some inner => simp [h, lookupAssoc_insertAssoc_self]

/-! ## Claim C4 -/

/-- Claim C4 (confirmed): for every Cell constructed with a backpointer `b`
and fired-feature mapping `ff`, its score is `b.score` plus the sum of the
weights in `ff` and its length is `b.length + 1`; for a Cell constructed
without a backpointer (the start cell), score is 0 and length is 0. -/
theorem C4_cell_score_length_additivity :
    (∀ t bp ff, (Cell.cons t bp ff).score = bp.score + (ff.map Prod.snd).sum
        ∧ (Cell.cons t bp ff).length = bp.length + 1)
    ∧ (∀ t ff, (Cell.root t ff).score = 0 ∧ (Cell.root t ff).length = 0) :=
  ⟨fun _ _ _ => ⟨rfl, rfl⟩, fun _ _ => ⟨rfl, rfl⟩⟩

/-! ## Claim C8 -/

/-- Claim C8 (confirmed): on any Cell of length N, `genCommand` joins with
single spaces exactly N tokens — the chain's terms in root-to-leaf order
with the synthetic start (root) token excluded and every token equal to
the grammar's hole symbol replaced by `"*"`. -/
theorem C8_genCommand_tokens (hole : String) (c : Cell) :
    c.genCommand hole
      = String.intercalate " "
          (c.bodyTerms.map (fun t => if t = hole then "*" else t))
    ∧ (c.bodyTerms.map (fun t => if t = hole then "*" else t)).length = c.length := by
  constructor
  · show String.intercalate " " ((c.genCmdList hole).drop 1) = _
    rw [Cell.genCmdList_eq_map, Cell.bodyTerms, List.map_drop]
  · simp [Cell.bodyTerms_length c]

/-! ## Claim C1 -/

/-- Claim C1 counterexample: for the record `a ||| b ||| 1 2 3 4` the
weight stored in both mappings is `4` — the FOURTH float (`lex_nl_cmd`),
not the third (`3`) as the claim states. -/
theorem C1_counterexample :
    make_phrase_table ["a ||| b ||| 1 2 3 4"]
      = .ok ⟨[("a", [("b", 4)])], [("b", [("a", 4)])]⟩
    ∧ ((4 : ℚ) ≠ 3) :=
  ⟨rfl, by decide⟩

/-- Claim C1 as amended (the counterexample forces only third → fourth):
for every input record `phrase ||| snippet ||| s1 s2 s3 s4`, processing the
record stores the FOURTH of the four floats (`lex_nl_cmd` in the source's
naming) as the weight in both `P2TScores[phrase][snippet]` and
`T2PScores[snippet][phrase]`, whatever the table contents so far. -/
theorem C1_amended_fourth_float_stored (t0 : PhraseTables) (line p s : String)
    (s1 s2 s3 s4 : ℚ)
    (h : parseLine line = .ok ((p, s), (s1, s2, s3, s4))) :
    make_phrase_table_from t0 [line] = .ok (addRecord t0 ((p, s), (s1, s2, s3, s4)))
    ∧ lookup2 (addRecord t0 ((p, s), (s1, s2, s3, s4))).P2TScores p s = some s4
    ∧ lookup2 (addRecord t0 ((p, s), (s1, s2, s3, s4))).T2PScores s p = some s4 := by
  refine ⟨?_, lookup2_insert2_self _ _ _ _, lookup2_insert2_self _ _ _ _⟩
  simp [make_phrase_table_from, h]

/-- Witness for `C1_amended_fourth_float_stored` at a concrete record. -/
theorem C1_amended_witness :
    make_phrase_table_from ⟨[], []⟩ ["a ||| b ||| 1 2 3 4"]
        = .ok (addRecord ⟨[], []⟩ (("a", "b"), (1, 2, 3, 4)))
    ∧ lookup2 (addRecord ⟨[], []⟩ (("a", "b"), (1, 2, 3, 4))).P2TScores "a" "b" = some 4
    ∧ lookup2 (addRecord ⟨[], []⟩ (("a", "b"), (1, 2, 3, 4))).T2PScores "b" "a" = some 4 :=
  C1_amended_fourth_float_stored ⟨[], []⟩ "a ||| b ||| 1 2 3 4" "a" "b" 1 2 3 4 rfl

/-! ## Claim C7 -/

/-- Claim C7 counterexample: the line `a ||| b ||| 1 2 3 4 ||| x` splits
into four `|||`-delimited parts, not three, yet `make_phrase_table`
succeeds (the extra part is silently ignored) — refuting "fails whenever
some input line does not split into exactly three parts". -/
theorem C7_counterexample :
    (pySplitOn (pyStrip "a ||| b ||| 1 2 3 4 ||| x") "|||").length = 4
    ∧ make_phrase_table ["a ||| b ||| 1 2 3 4 ||| x"]
        = .ok ⟨[("a", [("b", 4)])], [("b", [("a", 4)])]⟩ :=
  ⟨rfl, rfl⟩

/-- The score field of a phrase-table line: `parts[2]` when it exists. -/
def scoreField (line : String) : String :=
  ((pySplitOn (pyStrip line) "|||").drop 2).headD ""

theorem parseLine_error_of_malformed (line : String)
    (hbad : (pySplitOn (pyStrip line) "|||").length < 3
      ∨ ∀ l, (pySplitWhitespace (scoreField line)).mapM parseFloat = some l →
          l.length ≠ 4) :
    parseLine line = .error () := by
  unfold parseLine
  rcases hp : pySplitOn (pyStrip line) "|||" with _ | ⟨p0, _ | ⟨p1, _ | ⟨p2, rest⟩⟩⟩
  · rfl
  · rfl
  · rfl
  · rcases hbad with hlen | hfloats
    · rw [hp] at hlen; simp at hlen; omega
    · have hsf : scoreField line = p2 := by simp [scoreField, hp]
      rw [hsf] at hfloats
      rcases hm : (pySplitWhitespace p2).mapM parseFloat with _ | ⟨_ | ⟨a, _ | ⟨b, _ | ⟨c, _ | ⟨d, _ | _⟩⟩⟩⟩⟩ <;>
        simp_all

theorem make_phrase_table_from_error (lines : List String) :
    ∀ t line, line ∈ lines → parseLine line = .error () →
      make_phrase_table_from t lines = .error () := by
  induction lines with
  | nil => intro t line hmem; cases hmem
  | cons hd tl ih =>
      intro t line hmem herr
      rcases List.mem_cons.mp hmem with heq | htl
      · subst heq
        simp [make_phrase_table_from, herr]
      · cases hp : parseLine hd with
        | error e => cases e; simp [make_phrase_table_from, hp]
        | ok r => simp [make_phrase_table_from, hp, ih _ line htl herr]

/-- Claim C7 as amended (the counterexample forces "exactly three parts" →
"fewer than three parts"): `make_phrase_table` fails with the
malformed-record condition whenever some input line splits into fewer than
three `|||`-delimited parts or its third part does not parse as exactly
four space-separated floats (extra `|||`-delimited parts beyond the third
are ignored); the `Except`-valued construction is all-or-nothing — on
failure no table is produced. -/
theorem C7_amended_malformed_aborts (lines : List String) (line : String)
    (hmem : line ∈ lines)
    (hbad : (pySplitOn (pyStrip line) "|||").length < 3
      ∨ ∀ l, (pySplitWhitespace (scoreField line)).mapM parseFloat = some l →
          l.length ≠ 4) :
    make_phrase_table lines = .error () :=
  make_phrase_table_from_error lines ⟨[], []⟩ line hmem
    (parseLine_error_of_malformed line hbad)

/-- Witness for `C7_amended_malformed_aborts`: a two-part line aborts
construction of the whole table. -/
theorem C7_amended_witness : make_phrase_table ["ok ||| cp ||| 1 2 3 4", "a ||| b"] = .error () :=
  C7_amended_malformed_aborts ["ok ||| cp ||| 1 2 3 4", "a ||| b"] "a ||| b"
    (by decide) (Or.inl (by decide))

/-! ## Claim C6 -/

/-- Claim C6 (confirmed): whenever the traversal reaches the push step and
the Token Enumerator rejects the current cell's term (`allows` is false),
`dfs` yields `Except.error 1` — the model of `sys.exit(1)`, a non-zero
exit status that the `Except` monad propagates through every enclosing
`dfsChildren`/`dfs`/`parse` frame, so the traversal never continues past a
rejected push.  The hypotheses state that the push step is reached: the
term is neither the end-of-input sentinel, nor the pipe token, nor the
start sentinel, and the maximum length has not been reached. -/
theorem C6_rejected_push_aborts (P : Parser) (words : List String) (fuel : Nat)
    (cell : Cell) (st : SearchState)
    (h1 : cell.term ≠ P.grammar.eof) (h2 : cell.term ≠ "|")
    (h3 : cell.length ≠ P.max_command_length)
    (h4 : cell.term ≠ "__START_SYMBOL__")
    (h5 : P.grammar.allows st.stack cell.term = false) :
    P.dfs words (fuel + 1) cell st = .error 1 := by
  have hstack : ∀ b : Prop, ∀ inst : Decidable b,
      (if b then recordCell st cell else st).stack = st.stack := by
    intro b inst; split <;> rfl
  simp only [Parser.dfs]
  rw [if_neg h1, if_neg h2, if_neg h3, if_neg h4]
  rw [hstack, h5]
  simp

/-- Witness for `C6_rejected_push_aborts`: over `Greject` the push of a
one-token cell is rejected and the run aborts with exit status 1. -/
theorem C6_witness :
    Preject.dfs [] 1 (Cell.cons "a" (Cell.root "__START_SYMBOL__" []) [])
      ⟨[], [], []⟩ = .error 1 :=
  C6_rejected_push_aborts Preject [] 0
    (Cell.cons "a" (Cell.root "__START_SYMBOL__" []) []) ⟨[], [], []⟩
    (by decide) (by decide) (by decide) (by decide) rfl

/-! ## Claim C2 -/

/-- Claim C2 (code bug): the claim — push at entry iff the term is not the
start sentinel, matching pop after the children, the start cell triggering
neither — matches the intent visible in the source's symmetric guards, but
the `for term in self.legal_tokens():` loop rebinds `term`, so after the
loop the pop guard tests the LAST legal token instead of the cell's own
term.  Concretely, over `Gtest` (one legal token `"a"` from the empty
stack), running `dfs` on the start cell issues the trace `[pop]`: one pop
and no push at all, so the start cell triggered a pop and pop calls do not
nest with pushes. -/
theorem C2_start_pop_without_push :
    Ptest.dfs ["w"] 2 (Cell.root "__START_SYMBOL__" []) ⟨[], [], []⟩
      = .ok ⟨[], [Cell.cons "a" (Cell.root "__START_SYMBOL__" []) []], [EnumEvent.pop]⟩
    ∧ (∀ t, EnumEvent.push t ∉ [EnumEvent.pop]) := ⟨rfl, by simp⟩

/-! ## DFS traversal invariants -/

/-- The children loop only appends to `final_cells` (cells satisfying `Q`)
and to the trace (events satisfying `R`), provided each recursive call
does. -/
theorem dfsChildren_appends (P : Parser) (words : List String)
    (f : Cell → SearchState → Except Nat SearchState) (cell : Cell)
    (Q : Cell → Prop) (R : EnumEvent → Prop)
    (hf : ∀ t st st2, f (Cell.cons t cell (P.local_score t words)) st = .ok st2 →
        (∃ new, st2.final_cells = st.final_cells ++ new ∧ ∀ c ∈ new, Q c)
        ∧ (∃ tr, st2.trace = st.trace ++ tr ∧ ∀ e ∈ tr, R e)) :
    ∀ ts st st2, dfsChildren P words f cell ts st = .ok st2 →
        (∃ new, st2.final_cells = st.final_cells ++ new ∧ ∀ c ∈ new, Q c)
        ∧ (∃ tr, st2.trace = st.trace ++ tr ∧ ∀ e ∈ tr, R e) := by
  intro ts
  induction ts with
  | nil =>
      intro st st2 h
      simp only [dfsChildren] at h
      cases h
      exact ⟨⟨[], by simp⟩, ⟨[], by simp⟩⟩
  | cons t ts ih =>
      intro st st2 h
      simp only [dfsChildren] at h
      cases hx : f (Cell.cons t cell (P.local_score t words)) st with
      | error e => rw [hx] at h; cases h
      | ok st1 =>
          rw [hx] at h
          obtain ⟨⟨n1, hn1, hq1⟩, ⟨t1, ht1, hr1⟩⟩ := hf t st st1 hx
          obtain ⟨⟨n2, hn2, hq2⟩, ⟨t2, ht2, hr2⟩⟩ := ih st1 st2 h
          refine ⟨⟨n1 ++ n2, ?_, ?_⟩, ⟨t1 ++ t2, ?_, ?_⟩⟩
          · rw [hn2, hn1, List.append_assoc]
          · intro c hc; rcases List.mem_append.mp hc with h | h
            · exact hq1 c h
            · exact hq2 c h
          · rw [ht2, ht1, List.append_assoc]
          · intro e he; rcases List.mem_append.mp he with h | h
            · exact hr1 e h
            · exact hr2 e h

/-- A `dfs` call on a cell within the length bound only appends to
`final_cells`, and every appended cell's length lies in
`(min_command_length, max_command_length]`; the trace also only grows. -/
theorem dfs_appends_bounded (P : Parser) (words : List String) :
    ∀ fuel cell st st2, cell.length ≤ P.max_command_length →
      P.dfs words fuel cell st = .ok st2 →
      (∃ new, st2.final_cells = st.final_cells ++ new
        ∧ ∀ c ∈ new, P.min_command_length < c.length
            ∧ c.length ≤ P.max_command_length)
      ∧ (∃ tr, st2.trace = st.trace ++ tr ∧ ∀ e ∈ tr, True) := by
  intro fuel
  induction fuel with
  | zero =>
      intro cell st st2 _ h
      simp only [Parser.dfs] at h
      cases h
      exact ⟨⟨[], by simp⟩, ⟨[], by simp⟩⟩
  | succ fuel ih =>
      intro cell st st2 hlen h
      simp only [Parser.dfs] at h
      split at h
      case isTrue => cases h; exact ⟨⟨[], by simp⟩, ⟨[], by simp⟩⟩
      case isFalse h1 =>
      split at h
      case isTrue => cases h; exact ⟨⟨[], by simp⟩, ⟨[], by simp⟩⟩
      case isFalse h2 =>
      set st1 := (if P.min_command_length < cell.length ∧ P.grammar.allow_eof st.stack = true
          then recordCell st cell else st) with hst1
      have hrec : (∃ newr, st1.final_cells = st.final_cells ++ newr
            ∧ ∀ c ∈ newr, P.min_command_length < c.length ∧ c.length ≤ P.max_command_length)
          ∧ st1.trace = st.trace := by
        rw [hst1]; split
        case isTrue hcond =>
          refine ⟨⟨[cell], rfl, ?_⟩, rfl⟩
          intro c hc; simp at hc; subst hc; exact ⟨hcond.1, hlen⟩
        case isFalse => exact ⟨⟨[], by simp⟩, rfl⟩
      obtain ⟨⟨newr, hnewr, hqr⟩, htr1⟩ := hrec
      split at h
      case isTrue =>
        injection h with h
        subst h
        exact ⟨⟨newr, hnewr, hqr⟩, ⟨[], by simp [htr1]⟩⟩
      case isFalse h3 =>
      split at h
      case h_1 e heq => cases h
      case h_2 stp heq =>
        have hstp : stp.final_cells = st1.final_cells
            ∧ ∃ tr0, stp.trace = st1.trace ++ tr0 := by
          split at heq
          · cases heq; exact ⟨rfl, ⟨[], by simp⟩⟩
          · split at heq
            · cases heq; exact ⟨rfl, ⟨[EnumEvent.push cell.term], rfl⟩⟩
            · cases heq
        obtain ⟨hfp, tr0, htr0⟩ := hstp
        have hf : ∀ t stA stB,
            P.dfs words fuel (Cell.cons t cell (P.local_score t words)) stA = .ok stB →
            (∃ new, stB.final_cells = stA.final_cells ++ new
              ∧ ∀ c ∈ new, P.min_command_length < c.length
                  ∧ c.length ≤ P.max_command_length)
            ∧ (∃ tr, stB.trace = stA.trace ++ tr ∧ ∀ e ∈ tr, True) := by
          intro t stA stB hd
          have hchild : (Cell.cons t cell (P.local_score t words)).length
              ≤ P.max_command_length := by
            show cell.length + 1 ≤ _
            omega
          exact ih _ stA stB hchild hd
        split at h
        case h_1 e heq2 => cases h
        case h_2 st3 heq2 =>
          obtain ⟨⟨new2, hnew2, hq2⟩, ⟨tr2, htr2, _⟩⟩ :=
            dfsChildren_appends P words (P.dfs words fuel) cell
              (fun c => P.min_command_length < c.length ∧ c.length ≤ P.max_command_length)
              (fun _ => True) hf _ stp st3 heq2
          have hfin : st3.final_cells = st.final_cells ++ (newr ++ new2) := by
            rw [hnew2, hfp, hnewr, List.append_assoc]
          have htr3 : st3.trace = st.trace ++ (tr0 ++ tr2) := by
            rw [htr2, htr0, htr1, List.append_assoc]
          have hqall : ∀ c ∈ newr ++ new2,
              P.min_command_length < c.length ∧ c.length ≤ P.max_command_length := by
            intro c hc; rcases List.mem_append.mp hc with hc | hc
            · exact hqr c hc
            · exact hq2 c hc
          split at h
          · cases h; exact ⟨⟨newr ++ new2, hfin, hqall⟩, ⟨tr0 ++ tr2, htr3, by simp⟩⟩
          · cases h
            refine ⟨⟨newr ++ new2, hfin, hqall⟩,
              ⟨(tr0 ++ tr2) ++ [EnumEvent.pop], ?_, by simp⟩⟩
            show st3.trace ++ [EnumEvent.pop] = _
            rw [htr3, List.append_assoc]

/-- Claim C3 (confirmed): every Cell recorded by the traversal (started
anywhere within the length bound) has length strictly greater than
`min_command_length` and at most `max_command_length`; a cell whose length
equals the maximum is recorded at most and never extended — no push, no
children, no further recording; and a cell passing the recording test is
recorded without stopping the branch: the final accumulator extends the
recording, everything later appended after it. -/
theorem C3_recorded_cells_in_bounds (P : Parser) (words : List String) (fuel : Nat)
    (cell : Cell) (st st2 : SearchState)
    (hlen : cell.length ≤ P.max_command_length)
    (hrun : P.dfs words (fuel + 1) cell st = .ok st2) :
    (∀ c ∈ st2.final_cells, c ∈ st.final_cells
        ∨ (P.min_command_length < c.length ∧ c.length ≤ P.max_command_length))
    ∧ (cell.length = P.max_command_length → cell.term ≠ P.grammar.eof →
        cell.term ≠ "|" →
        st2.stack = st.stack ∧ st2.trace = st.trace
        ∧ (st2.final_cells = st.final_cells
            ∨ st2.final_cells = st.final_cells ++ [cell]))
    ∧ (cell.term ≠ P.grammar.eof → cell.term ≠ "|" →
        P.min_command_length < cell.length →
        P.grammar.allow_eof st.stack = true →
        ∃ rest, st2.final_cells = st.final_cells ++ cell :: rest) := by
  refine ⟨?_, ?_, ?_⟩
  · obtain ⟨⟨new, hnew, hq⟩, _⟩ :=
      dfs_appends_bounded P words (fuel + 1) cell st st2 hlen hrun
    intro c hc
    rw [hnew] at hc
    rcases List.mem_append.mp hc with hc | hc
    · exact Or.inl hc
    · exact Or.inr (hq c hc)
  · intro hmax h1 h2
    simp only [Parser.dfs] at hrun
    rw [if_neg h1, if_neg h2, if_pos hmax] at hrun
    injection hrun with hrun
    subst hrun
    split
    case isTrue => exact ⟨rfl, rfl, Or.inr rfl⟩
    case isFalse => exact ⟨rfl, rfl, Or.inl rfl⟩
  · intro h1 h2 hmin heof
    simp only [Parser.dfs] at hrun
    rw [if_neg h1, if_neg h2, if_pos (⟨hmin, heof⟩ :
        P.min_command_length < cell.length ∧ P.grammar.allow_eof st.stack = true)] at hrun
    by_cases hmax : cell.length = P.max_command_length
    · rw [if_pos hmax] at hrun
      injection hrun with hrun
      subst hrun
      exact ⟨[], rfl⟩
    · rw [if_neg hmax] at hrun
      split at hrun
      next e heq => cases hrun
      next stp heq =>
        have hfp : stp.final_cells = (recordCell st cell).final_cells := by
          split at heq
          · cases heq; rfl
          · split at heq
            · cases heq; rfl
            · cases heq
        have hf : ∀ t stA stB,
            P.dfs words fuel (Cell.cons t cell (P.local_score t words)) stA = .ok stB →
            (∃ new, stB.final_cells = stA.final_cells ++ new ∧ ∀ c ∈ new, True)
            ∧ (∃ tr, stB.trace = stA.trace ++ tr ∧ ∀ e ∈ tr, True) := by
          intro t stA stB hd
          have hchild : (Cell.cons t cell (P.local_score t words)).length
              ≤ P.max_command_length := by
            show cell.length + 1 ≤ _
            omega
          obtain ⟨⟨new, hnew, _⟩, htr⟩ :=
            dfs_appends_bounded P words fuel _ stA stB hchild hd
          exact ⟨⟨new, hnew, fun c hc => trivial⟩, htr⟩
        split at hrun
        next e heq2 => cases hrun
        next st3 heq2 =>
          obtain ⟨⟨new2, hnew2, _⟩, _⟩ :=
            dfsChildren_appends P words (P.dfs words fuel) cell
              (fun _ => True) (fun _ => True) hf _ stp st3 heq2
          have hfin3 : st3.final_cells = st.final_cells ++ cell :: new2 := by
            rw [hnew2, hfp]
            show (st.final_cells ++ [cell]) ++ new2 = _
            simp
          split at hrun
          · injection hrun with hrun; subst hrun; exact ⟨new2, hfin3⟩
          · injection hrun with hrun; subst hrun; exact ⟨new2, hfin3⟩

/-- Witness for `C3_recorded_cells_in_bounds` at a concrete cell of maximal
length over `Gtest`. -/
theorem C3_witness :
    (∀ c ∈ [Cell.cons "a" (Cell.root "__START_SYMBOL__" []) []],
        c ∈ ([] : List Cell)
        ∨ (Ptest.min_command_length < c.length
            ∧ c.length ≤ Ptest.max_command_length))
    ∧ ((Cell.cons "a" (Cell.root "__START_SYMBOL__" []) []).length
          = Ptest.max_command_length →
        (Cell.cons "a" (Cell.root "__START_SYMBOL__" []) []).term
          ≠ Ptest.grammar.eof →
        (Cell.cons "a" (Cell.root "__START_SYMBOL__" []) []).term ≠ "|" →
        ([] : List String) = [] ∧ ([] : List EnumEvent) = []
        ∧ (([Cell.cons "a" (Cell.root "__START_SYMBOL__" []) []] : List Cell) = []
            ∨ [Cell.cons "a" (Cell.root "__START_SYMBOL__" []) []]
              = [] ++ [Cell.cons "a" (Cell.root "__START_SYMBOL__" []) []]))
    ∧ ((Cell.cons "a" (Cell.root "__START_SYMBOL__" []) []).term
          ≠ Ptest.grammar.eof →
        (Cell.cons "a" (Cell.root "__START_SYMBOL__" []) []).term ≠ "|" →
        Ptest.min_command_length
          < (Cell.cons "a" (Cell.root "__START_SYMBOL__" []) []).length →
        Ptest.grammar.allow_eof [] = true →
        ∃ rest, ([Cell.cons "a" (Cell.root "__START_SYMBOL__" []) []] : List Cell)
          = [] ++ (Cell.cons "a" (Cell.root "__START_SYMBOL__" []) []) :: rest) :=
  C3_recorded_cells_in_bounds Ptest ["w"] 0
    (Cell.cons "a" (Cell.root "__START_SYMBOL__" []) []) ⟨[], [], []⟩
    ⟨[], [Cell.cons "a" (Cell.root "__START_SYMBOL__" []) []], []⟩
    (by decide) rfl

/-- A cell whose term is the pipe token or the end-of-input sentinel makes
`dfs` return immediately with the state untouched (lines 169-174). -/
theorem dfs_id_of_skip_term (P : Parser) (words : List String) (fuel : Nat)
    (cell : Cell) (st : SearchState)
    (h : cell.term = "|" ∨ cell.term = P.grammar.eof) :
    P.dfs words fuel cell st = .ok st := by
  cases fuel with
  | zero => rfl
  | succ fuel =>
      simp only [Parser.dfs]
      by_cases h1 : cell.term = P.grammar.eof
      · rw [if_pos h1]
      · rw [if_neg h1, if_pos (h.resolve_right h1)]

/-- Along any `dfs` run from a cell whose non-root chain terms avoid the
pipe token and the end-of-input sentinel, every newly recorded cell's
non-root chain terms avoid them too, and every push issued is of a token
avoiding them. -/
theorem dfs_appends_clean (P : Parser) (words : List String) :
    ∀ fuel cell st st2,
      (∀ t ∈ cell.bodyTerms, t ≠ "|" ∧ t ≠ P.grammar.eof) →
      P.dfs words fuel cell st = .ok st2 →
      (∃ new, st2.final_cells = st.final_cells ++ new
        ∧ ∀ c ∈ new, ∀ t ∈ c.bodyTerms, t ≠ "|" ∧ t ≠ P.grammar.eof)
      ∧ (∃ tr, st2.trace = st.trace ++ tr
        ∧ ∀ e ∈ tr, ∀ t2, e = EnumEvent.push t2 → t2 ≠ "|" ∧ t2 ≠ P.grammar.eof) := by
  intro fuel
  induction fuel with
  | zero =>
      intro cell st st2 _ h
      simp only [Parser.dfs] at h
      cases h
      exact ⟨⟨[], by simp⟩, ⟨[], by simp⟩⟩
  | succ fuel ih =>
      intro cell st st2 hclean h
      simp only [Parser.dfs] at h
      split at h
      case isTrue => cases h; exact ⟨⟨[], by simp⟩, ⟨[], by simp⟩⟩
      case isFalse h1 =>
      split at h
      case isTrue => cases h; exact ⟨⟨[], by simp⟩, ⟨[], by simp⟩⟩
      case isFalse h2 =>
      set st1 := (if P.min_command_length < cell.length ∧ P.grammar.allow_eof st.stack = true
          then recordCell st cell else st) with hst1
      have hrec : (∃ newr, st1.final_cells = st.final_cells ++ newr
            ∧ ∀ c ∈ newr, ∀ t ∈ c.bodyTerms, t ≠ "|" ∧ t ≠ P.grammar.eof)
          ∧ st1.trace = st.trace := by
        rw [hst1]; split
        case isTrue hcond =>
          refine ⟨⟨[cell], rfl, ?_⟩, rfl⟩
          intro c hc; simp at hc; subst hc; exact hclean
        case isFalse => exact ⟨⟨[], by simp⟩, rfl⟩
      obtain ⟨⟨newr, hnewr, hqr⟩, htr1⟩ := hrec
      split at h
      case isTrue =>
        injection h with h
        subst h
        exact ⟨⟨newr, hnewr, hqr⟩, ⟨[], by simp [htr1]⟩⟩
      case isFalse h3 =>
      split at h
      next e heq => cases h
      next stp heq =>
        have hstp : stp.final_cells = st1.final_cells
            ∧ ∃ tr0, stp.trace = st1.trace ++ tr0
              ∧ ∀ e ∈ tr0, ∀ t2, e = EnumEvent.push t2 →
                  t2 ≠ "|" ∧ t2 ≠ P.grammar.eof := by
          split at heq
          · cases heq; exact ⟨rfl, ⟨[], by simp⟩⟩
          · split at heq
            · cases heq
              refine ⟨rfl, ⟨[EnumEvent.push cell.term], rfl, ?_⟩⟩
              intro e he t2 hpt
              simp at he; subst he
              cases hpt
              exact ⟨h2, h1⟩
            · cases heq
        obtain ⟨hfp, tr0, htr0, hr0⟩ := hstp
        have hf : ∀ t stA stB,
            P.dfs words fuel (Cell.cons t cell (P.local_score t words)) stA = .ok stB →
            (∃ new, stB.final_cells = stA.final_cells ++ new
              ∧ ∀ c ∈ new, ∀ t2 ∈ c.bodyTerms, t2 ≠ "|" ∧ t2 ≠ P.grammar.eof)
            ∧ (∃ tr, stB.trace = stA.trace ++ tr
              ∧ ∀ e ∈ tr, ∀ t2, e = EnumEvent.push t2 →
                  t2 ≠ "|" ∧ t2 ≠ P.grammar.eof) := by
          intro t stA stB hd
          by_cases hskip : t = "|" ∨ t = P.grammar.eof
          · rw [dfs_id_of_skip_term P words fuel (Cell.cons t cell (P.local_score t words)) stA hskip] at hd
            cases hd
            exact ⟨⟨[], by simp⟩, ⟨[], by simp⟩⟩
          · push_neg at hskip
            have hchild : ∀ t2 ∈ (Cell.cons t cell (P.local_score t words)).bodyTerms,
                t2 ≠ "|" ∧ t2 ≠ P.grammar.eof := by
              rw [Cell.bodyTerms_cons]
              intro t2 ht2
              rcases List.mem_append.mp ht2 with ht2 | ht2
              · exact hclean t2 ht2
              · simp at ht2; subst ht2; exact hskip
            exact ih _ stA stB hchild hd
        split at h
        next e heq2 => cases h
        next st3 heq2 =>
          obtain ⟨⟨new2, hnew2, hq2⟩, ⟨tr2, htr2, hr2⟩⟩ :=
            dfsChildren_appends P words (P.dfs words fuel) cell
              (fun c => ∀ t2 ∈ c.bodyTerms, t2 ≠ "|" ∧ t2 ≠ P.grammar.eof)
              (fun e => ∀ t2, e = EnumEvent.push t2 → t2 ≠ "|" ∧ t2 ≠ P.grammar.eof)
              hf _ stp st3 heq2
          have hfin : st3.final_cells = st.final_cells ++ (newr ++ new2) := by
            rw [hnew2, hfp, hnewr, List.append_assoc]
          have htr3 : st3.trace = st.trace ++ (tr0 ++ tr2) := by
            rw [htr2, htr0, htr1, List.append_assoc]
          have hqall : ∀ c ∈ newr ++ new2, ∀ t2 ∈ c.bodyTerms,
              t2 ≠ "|" ∧ t2 ≠ P.grammar.eof := by
            intro c hc; rcases List.mem_append.mp hc with hc | hc
            · exact hqr c hc
            · exact hq2 c hc
          have hrall : ∀ e ∈ tr0 ++ tr2, ∀ t2, e = EnumEvent.push t2 →
              t2 ≠ "|" ∧ t2 ≠ P.grammar.eof := by
            intro e he; rcases List.mem_append.mp he with he | he
            · exact hr0 e he
            · exact hr2 e he
          split at h
          · cases h; exact ⟨⟨newr ++ new2, hfin, hqall⟩, ⟨tr0 ++ tr2, htr3, hrall⟩⟩
          · cases h
            refine ⟨⟨newr ++ new2, hfin, hqall⟩,
              ⟨(tr0 ++ tr2) ++ [EnumEvent.pop], ?_, ?_⟩⟩
            · show st3.trace ++ [EnumEvent.pop] = _
              rw [htr3, List.append_assoc]
            · intro e he t2 hpt
              rcases List.mem_append.mp he with he | he
              · exact hrall e he t2 hpt
              · simp at he; subst he; cases hpt

/-- A clean chain yields a reconstructed token list free of the pipe token
and (when the sentinel is not the hole marker `"*"`) of the sentinel. -/
theorem cleanBody_tokens (hole eofTok : String) (c : Cell)
    (hclean : ∀ t ∈ c.bodyTerms, t ≠ "|" ∧ t ≠ eofTok) :
    "|" ∉ (c.genCmdList hole).drop 1
    ∧ (eofTok ≠ "*" → eofTok ∉ (c.genCmdList hole).drop 1) := by
  have hmap : (c.genCmdList hole).drop 1
      = c.bodyTerms.map (fun t => if t = hole then "*" else t) := by
    rw [Cell.genCmdList_eq_map, Cell.bodyTerms, List.map_drop]
  rw [hmap]
  constructor
  · intro hmem
    obtain ⟨t, ht, hx⟩ := List.mem_map.mp hmem
    by_cases hh : t = hole
    · rw [if_pos hh] at hx
      exact absurd hx (by decide)
    · rw [if_neg hh] at hx
      exact (hclean t ht).1 hx
  · intro hne hmem
    obtain ⟨t, ht, hx⟩ := List.mem_map.mp hmem
    by_cases hh : t = hole
    · rw [if_pos hh] at hx
      exact hne hx.symm
    · rw [if_neg hh] at hx
      exact (hclean t ht).2 hx

/-- Claim C9 (confirmed): no Cell whose term is the pipe token or the
end-of-input sentinel is ever recorded as a terminal parse (every cell
`parse` emits has all its non-root chain terms different from both, its
own term included), neither token appears in any reconstructed command
emitted by `parse` (for the sentinel, provided the grammar's sentinel
string is not the hole marker `"*"` itself), and along any traversal from
the start cell no push — the act that gives a cell children — is ever
issued for either token. -/
theorem C9_no_pipe_or_eof (P : Parser) (sent : String) (top_K : Nat) (out : List Cell)
    (hout : P.parse sent top_K = .ok out) :
    (∀ c ∈ out,
      (∀ t ∈ c.bodyTerms, t ≠ "|" ∧ t ≠ P.grammar.eof)
      ∧ "|" ∉ (c.genCmdList P.grammar.hole).drop 1
      ∧ (P.grammar.eof ≠ "*" →
          P.grammar.eof ∉ (c.genCmdList P.grammar.hole).drop 1))
    ∧ (∀ words fuel st st2,
        P.dfs words fuel (Cell.root "__START_SYMBOL__" []) st = .ok st2 →
        (∀ c ∈ st2.final_cells, c ∈ st.final_cells
          ∨ ∀ t ∈ c.bodyTerms, t ≠ "|" ∧ t ≠ P.grammar.eof)
        ∧ (∃ tr, st2.trace = st.trace ++ tr
          ∧ ∀ e ∈ tr, ∀ t2, e = EnumEvent.push t2 →
              t2 ≠ "|" ∧ t2 ≠ P.grammar.eof)) := by
  have hstart : ∀ t ∈ (Cell.root "__START_SYMBOL__" [] : Cell).bodyTerms,
      t ≠ "|" ∧ t ≠ P.grammar.eof := by
    intro t ht
    simp [Cell.bodyTerms, Cell.chainTerms] at ht
  constructor
  · intro c hc
    simp only [Parser.parse] at hout
    split at hout
    next e heq => cases hout
    next stf heq =>
      injection hout with hout
      subst hout
      have hc2 : c ∈ stf.final_cells := by
        have h1 := List.mem_of_mem_take hc
        exact (List.mem_insertionSort _).mp h1
      obtain ⟨⟨new, hnew, hq⟩, _⟩ := dfs_appends_clean P _ _ _ _ _ hstart heq
      rw [hnew] at hc2
      simp only [List.nil_append] at hc2
      have hcl := hq c hc2
      exact ⟨hcl, cleanBody_tokens P.grammar.hole P.grammar.eof c hcl⟩
  · intro words fuel st st2 hrun
    obtain ⟨⟨new, hnew, hq⟩, htr⟩ := dfs_appends_clean P words fuel _ st st2 hstart hrun
    constructor
    · intro c hc
      rw [hnew] at hc
      rcases List.mem_append.mp hc with hc | hc
      · exact Or.inl hc
      · exact Or.inr (hq c hc)
    · exact htr

/-- Witness for `C9_no_pipe_or_eof` on a concrete `parse` run over `Gtest`. -/
theorem C9_witness :
    (∀ c ∈ [Cell.cons "a" (Cell.root "__START_SYMBOL__" []) []],
      (∀ t ∈ c.bodyTerms, t ≠ "|" ∧ t ≠ Ptest.grammar.eof)
      ∧ "|" ∉ (c.genCmdList Ptest.grammar.hole).drop 1
      ∧ (Ptest.grammar.eof ≠ "*" →
          Ptest.grammar.eof ∉ (c.genCmdList Ptest.grammar.hole).drop 1))
    ∧ (∀ words fuel st st2,
        Ptest.dfs words fuel (Cell.root "__START_SYMBOL__" []) st = .ok st2 →
        (∀ c ∈ st2.final_cells, c ∈ st.final_cells
          ∨ ∀ t ∈ c.bodyTerms, t ≠ "|" ∧ t ≠ Ptest.grammar.eof)
        ∧ (∃ tr, st2.trace = st.trace ++ tr
          ∧ ∀ e ∈ tr, ∀ t2, e = EnumEvent.push t2 →
              t2 ≠ "|" ∧ t2 ≠ Ptest.grammar.eof)) :=
  C9_no_pipe_or_eof Ptest "w" 50
    [Cell.cons "a" (Cell.root "__START_SYMBOL__" []) []] rfl

/-- Claim C5 (confirmed): after the traversal, `parse` scores every
recorded cell with its accumulated score plus the redundant-word penalty
weight times the number of (distinct) input words outside its transitive
covered-word set, and emits the recorded cells sorted by this final score
in descending order, truncated to at most `top_K` (the source default is
50), the truncation returning all recorded cells when no more than
`top_K` were recorded. -/
theorem C5_ranking (P : Parser) (sent : String) (top_K : Nat) (st : SearchState)
    (hrun : P.dfs (pySplitWhitespace sent) (P.max_command_length + 1)
        (Cell.root "__START_SYMBOL__" []) ⟨[], [], []⟩ = .ok st) :
    ∃ out, P.parse sent top_K = .ok out
      ∧ (∀ c, P.final_score c (pySplitWhitespace sent)
          = c.score + P.redundant_word_score
              * (((pySplitWhitespace sent).toFinset \ c.cnl_words).card : ℚ))
      ∧ List.Sorted (fun a b => P.final_score b (pySplitWhitespace sent)
            ≤ P.final_score a (pySplitWhitespace sent)) out
      ∧ (∀ c ∈ out, c ∈ st.final_cells)
      ∧ out.length ≤ top_K
      ∧ (st.final_cells.length ≤ top_K → out.Perm st.final_cells) := by
  haveI htot : IsTotal Cell (fun a b => P.final_score b (pySplitWhitespace sent)
      ≤ P.final_score a (pySplitWhitespace sent)) := ⟨fun a b => le_total _ _⟩
  haveI htrans : IsTrans Cell (fun a b => P.final_score b (pySplitWhitespace sent)
      ≤ P.final_score a (pySplitWhitespace sent)) :=
    ⟨fun a b c hab hbc => le_trans hbc hab⟩
  refine ⟨(List.insertionSort (fun a b => P.final_score b (pySplitWhitespace sent)
      ≤ P.final_score a (pySplitWhitespace sent)) st.final_cells).take top_K,
      ?_, fun c => rfl, ?_, ?_, ?_, ?_⟩
  · simp only [Parser.parse]
    rw [hrun]
  · exact List.Pairwise.sublist (List.take_sublist _ _)
      (List.sorted_insertionSort _ _)
  · intro c hc
    exact (List.mem_insertionSort _).mp (List.mem_of_mem_take hc)
  · simp [List.length_take]
  · intro hlen
    have hslen : (List.insertionSort (fun a b => P.final_score b (pySplitWhitespace sent)
        ≤ P.final_score a (pySplitWhitespace sent)) st.final_cells).length ≤ top_K := by
      rw [(List.perm_insertionSort _ _).length_eq]
      exact hlen
    rw [List.take_of_length_le hslen]
    exact List.perm_insertionSort _ _

/-- Witness for `C5_ranking` on a concrete run over `Gtest`. -/
theorem C5_witness :
    ∃ out, Ptest.parse "w" 50 = .ok out
      ∧ (∀ c, Ptest.final_score c (pySplitWhitespace "w")
          = c.score + Ptest.redundant_word_score
              * (((pySplitWhitespace "w").toFinset \ c.cnl_words).card : ℚ))
      ∧ List.Sorted (fun a b => Ptest.final_score b (pySplitWhitespace "w")
            ≤ Ptest.final_score a (pySplitWhitespace "w")) out
      ∧ (∀ c ∈ out,
          c ∈ [Cell.cons "a" (Cell.root "__START_SYMBOL__" []) []])
      ∧ out.length ≤ 50
      ∧ (([Cell.cons "a" (Cell.root "__START_SYMBOL__" []) []] : List Cell).length ≤ 50 →
          out.Perm [Cell.cons "a" (Cell.root "__START_SYMBOL__" []) []]) :=
  C5_ranking Ptest "w" 50
    ⟨[], [Cell.cons "a" (Cell.root "__START_SYMBOL__" []) []], [EnumEvent.pop]⟩ rfl

/-! ## Claim C10: the ungrounded-token weight is never read -/

/-- `local_score` reads only the `T2PScores` field. -/
theorem local_score_congr (P Q : Parser) (hT : P.T2PScores = Q.T2PScores)
    (term : String) (words : List String) :
    P.local_score term words = Q.local_score term words := by
  simp only [Parser.local_score, hT]

/-- The children loop is insensitive to any parser field other than
`T2PScores`, given its step functions agree. -/
theorem dfsChildren_congr (P Q : Parser) (words : List String)
    (f g : Cell → SearchState → Except Nat SearchState) (cell : Cell)
    (hT : P.T2PScores = Q.T2PScores)
    (hfg : ∀ c st, f c st = g c st) :
    ∀ ts st, dfsChildren P words f cell ts st = dfsChildren Q words g cell ts st := by
  intro ts
  induction ts with
  | nil => intro st; rfl
  | cons t ts ih =>
      intro st
      simp only [dfsChildren]
      rw [local_score_congr P Q hT t words, hfg]
      cases g (Cell.cons t cell (Q.local_score t words)) st with
      | error e => rfl
      | ok st2 => exact ih st2

/-- `dfs` reads only the grammar, the snippet-to-phrase table and the two
length bounds — in particular, never `ungrounded_token_score`. -/
theorem dfs_congr (P Q : Parser) (words : List String)
    (hG : P.grammar = Q.grammar) (hT : P.T2PScores = Q.T2PScores)
    (hmin : P.min_command_length = Q.min_command_length)
    (hmax : P.max_command_length = Q.max_command_length) :
    ∀ fuel cell st, P.dfs words fuel cell st = Q.dfs words fuel cell st := by
  intro fuel
  induction fuel with
  | zero => intro cell st; rfl
  | succ fuel ih =>
      intro cell st
      simp only [Parser.dfs]
      rw [hG, hmin, hmax]
      split
      · rfl
      · split
        · rfl
        · split
          · rfl
          · split
            · rfl
            next stp heq =>
              rw [dfsChildren_congr P Q words (P.dfs words fuel) (Q.dfs words fuel)
                cell hT (fun c st => ih c st)]

/-- Claim C10 (confirmed): the ungrounded-token penalty weight is declared
but never applied — two parsers identical except for the value of
`ungrounded_token_score` produce identical `parse` output (same cells,
same order, hence identical rankings) and identical final scores on every
cell. -/
theorem C10_ungrounded_score_unused (g : Grammar)
    (p2t t2p : List (String × List (String × ℚ))) (r u u2 : ℚ) (mn mx : Nat)
    (sent : String) (top_K : Nat) (c : Cell) (ws : List String) :
    Parser.parse ⟨g, p2t, t2p, r, u, mn, mx⟩ sent top_K
      = Parser.parse ⟨g, p2t, t2p, r, u2, mn, mx⟩ sent top_K
    ∧ Parser.final_score ⟨g, p2t, t2p, r, u, mn, mx⟩ c ws
      = Parser.final_score ⟨g, p2t, t2p, r, u2, mn, mx⟩ c ws := by
  constructor
  · simp only [Parser.parse]
    rw [dfs_congr ⟨g, p2t, t2p, r, u, mn, mx⟩ ⟨g, p2t, t2p, r, u2, mn, mx⟩
      (pySplitWhitespace sent) rfl rfl rfl rfl]
    simp only [Parser.final_score]
  · rfl
